import Mathlib

/-!
# Verification of the afio/llfio handle, extent-guard and lock_files core

Shallow embedding of:
* `src/include/boost/afio/v2.0/handle.hpp` — `handle` capability queries,
  `io_handle::extent_guard`, `io_handle::io_result`;
* `src/include/boost/afio/v2/algorithm/shared_fs_mutex/lock_files.hpp` —
  the multi-entity shared-filesystem-mutex acquisition loop `_lock` and `unlock`.

Conventions: machine integers are `Nat` with explicit `% 2 ^ 64` where the C++
arithmetic wraps; C++ pointers that may be null are `Option`; side effects
(calls to `io_handle::lock` / `io_handle::unlock`, thread yields) are recorded
as explicit event traces.  Parts of the repository that the translated code
calls but whose implementation is not in `src/` (the `deadline` type, the
platform byte-range lock table, `std::random_shuffle`) are modelled from the
specification's words; each such definition carries a doc comment saying so.
-/

set_option linter.unusedVariables false

namespace AfioProof

/-! ## handle.hpp: caching modes, flags, capability queries -/

/-- `handle::caching` from handle.hpp (enum class, bit 0 set means safety
fsyncs enabled). -/
inductive caching
  | unchanged
  | none
  | only_metadata
  | reads
  | reads_and_metadata
  | all
  | safety_fsyncs
  | temporary
deriving DecidableEq

/-- The numeric encoding of `handle::caching` exactly as in the C++ enum:
`unchanged = 0, none = 1, only_metadata = 2, reads = 3, reads_and_metadata = 5,
all = 4, safety_fsyncs = 7, temporary = 6`. -/
def caching.toNat : caching → Nat
  | caching.unchanged => 0
  | caching.none => 1
  | caching.only_metadata => 2
  | caching.reads => 3
  | caching.reads_and_metadata => 5
  | caching.all => 4
  | caching.safety_fsyncs => 7
  | caching.temporary => 6

/-- `handle::flag` bit values from handle.hpp, as a `Nat` bitmask. -/
def flag.win_delete_on_last_close : Nat := 1
def flag.posix_unlink_on_first_close : Nat := 2
def flag.disable_safety_fsyncs : Nat := 4
def flag.overlapped : Nat := 2 ^ 28
def flag.byte_lock_insanity : Nat := 2 ^ 29

/-- Modelled from the spec: `native_handle_type` (its header is not under
`src/`) wraps a platform resource id plus a small descriptor bitmask.  Only
its presence as independent state matters to the claims proved here. -/
structure native_handle_type where
  behaviour : Nat
  fd : Int

/-- `handle` from handle.hpp: protected members `_caching`, `_flags`, `_v`. -/
structure handle where
  _caching : caching
  _flags : Nat
  _v : native_handle_type

/-- `handle::kernel_caching()`. -/
def handle.kernel_caching (h : handle) : caching := h._caching

/-- `handle::are_reads_from_cache()`:
`_caching != caching::none && _caching != caching::only_metadata`. -/
def handle.are_reads_from_cache (h : handle) : Bool :=
  decide (h._caching ≠ caching.none) && decide (h._caching ≠ caching.only_metadata)

/-- `handle::are_writes_durable()`:
`_caching == caching::none || _caching == caching::reads || _caching == caching::reads_and_metadata`. -/
def handle.are_writes_durable (h : handle) : Bool :=
  decide (h._caching = caching.none) || decide (h._caching = caching.reads) ||
    decide (h._caching = caching.reads_and_metadata)

/-- `handle::are_safety_fsyncs_issued()`:
`!(_flags & flag::disable_safety_fsyncs) && !!(static_cast<int>(_caching) & 1)`. -/
def handle.are_safety_fsyncs_issued (h : handle) : Bool :=
  decide (h._flags &&& flag.disable_safety_fsyncs = 0) &&
    decide (h._caching.toNat &&& 1 ≠ 0)

end AfioProof

namespace AfioProof

/-- C5: `are_writes_durable()` is true exactly for caching modes `none`,
`reads`, `reads_and_metadata`; in particular true for `reads` and false for
`all`; and it depends only on the caching mode, not on the flags or the
native handle state. -/
theorem C5_are_writes_durable (c : caching) (f f' : Nat) (v v' : native_handle_type) :
    (handle.are_writes_durable ⟨c, f, v⟩ = true ↔
      (c = caching.none ∨ c = caching.reads ∨ c = caching.reads_and_metadata))
    ∧ handle.are_writes_durable ⟨c, f, v⟩ = handle.are_writes_durable ⟨c, f', v'⟩
    ∧ handle.are_writes_durable ⟨caching.reads, f, v⟩ = true
    ∧ handle.are_writes_durable ⟨caching.all, f, v⟩ = false := by
  refine ⟨?_, rfl, rfl, rfl⟩
  cases c <;> simp [handle.are_writes_durable]

end AfioProof

namespace AfioProof

/-- C6: `are_safety_fsyncs_issued()` is true iff the `disable_safety_fsyncs`
flag bit is clear and the caching mode's encoding has bit 0 set, i.e. the
caching mode is one of `none`, `reads`, `reads_and_metadata`,
`safety_fsyncs`; in particular it is false whenever the flag bit is set. -/
theorem C6_are_safety_fsyncs_issued (c : caching) (f : Nat) (v : native_handle_type) :
    (handle.are_safety_fsyncs_issued ⟨c, f, v⟩ = true ↔
      (f &&& flag.disable_safety_fsyncs = 0 ∧
        (c = caching.none ∨ c = caching.reads ∨ c = caching.reads_and_metadata ∨
          c = caching.safety_fsyncs)))
    ∧ (f &&& flag.disable_safety_fsyncs ≠ 0 →
        handle.are_safety_fsyncs_issued ⟨c, f, v⟩ = false) := by
  constructor
  · cases c <;> simp [handle.are_safety_fsyncs_issued, caching.toNat]
  · intro hf
    cases c <;> simp [handle.are_safety_fsyncs_issued, caching.toNat, hf]

/-- Witness: with the `disable_safety_fsyncs` bit set and caching mode
`reads`, the query is false even though the caching mode's low bit is 1. -/
theorem C6_are_safety_fsyncs_issued_witness :
    handle.are_safety_fsyncs_issued ⟨caching.reads, 4, ⟨0, 0⟩⟩ = false
    ∧ handle.are_safety_fsyncs_issued ⟨caching.reads, 0, ⟨0, 0⟩⟩ = true :=
  ⟨(C6_are_safety_fsyncs_issued caching.reads 4 ⟨0, 0⟩).2 (by decide),
   ((C6_are_safety_fsyncs_issued caching.reads 0 ⟨0, 0⟩).1).2 (by decide)⟩

/-! ## handle.hpp: `io_handle::extent_guard`

An `io_handle *` is modelled as `Option Nat` (an id for the handle object,
`Option.none` for `nullptr`).  Calls the guard makes to
`io_handle::unlock(offset, bytes)` are recorded as a list of `UnlockCall`
values in the order they are issued. -/

/-- One call `h->unlock(offset, bytes)` issued by a guard. -/
structure UnlockCall where
  h : Nat
  offset : Nat
  bytes : Nat

/-- `io_handle::extent_guard`: members `_h`, `_offset`, `_length`,
`_exclusive`. -/
structure extent_guard where
  _h : Option Nat
  _offset : Nat
  _length : Nat
  _exclusive : Bool

/-- The default-constructed guard: `_h(nullptr), _offset(0), _length(0),
_exclusive(false)`. -/
def extent_guard.mk0 : extent_guard := ⟨Option.none, 0, 0, false⟩

/-- `extent_guard::release()`: `_h = nullptr; _offset = 0; _length = 0;
_exclusive = false;`. -/
def extent_guard.release (g : extent_guard) : extent_guard :=
  ⟨Option.none, 0, 0, false⟩

/-- `extent_guard::extent_guard(extent_guard &&o)`: copies `o`'s four members
into the new guard, then `o.release()`.  Returns (new guard, source after the
move). -/
def extent_guard.moveCtor (o : extent_guard) : extent_guard × extent_guard :=
  (⟨o._h, o._offset, o._length, o._exclusive⟩, o.release)

/-- `extent_guard::unlock()`: `if(_h) { _h->unlock(_offset, _length);
release(); }`.  Returns the guard's new state and the `io_handle::unlock`
calls issued. -/
def extent_guard.unlock (g : extent_guard) : extent_guard × List UnlockCall :=
  match g._h with
  | Option.some hh => (g.release, [⟨hh, g._offset, g._length⟩])
  | Option.none => (g, [])

/-- `extent_guard::~extent_guard()`: `if(_h) unlock();`.  Returns the
`io_handle::unlock` calls issued during destruction. -/
def extent_guard.dtor (g : extent_guard) : List UnlockCall :=
  match g._h with
  | Option.some _ => g.unlock.2
  | Option.none => []

/-- `extent_guard::operator=(extent_guard &&o)`: `unlock(); _h = o._h;
_offset = o._offset; _length = o._length; _exclusive = o._exclusive;
o.release();`.  Returns (assigned-to guard, source after, unlock calls
issued). -/
def extent_guard.moveAssign (dst src : extent_guard) :
    extent_guard × extent_guard × List UnlockCall :=
  ((⟨src._h, src._offset, src._length, src._exclusive⟩ : extent_guard),
    src.release, dst.unlock.2)

/-- C7: move construction copies the lock representation into the new guard
and leaves the source invalid (`_h = none, _offset = 0, _length = 0,
_exclusive = false`); destroying any guard with `_h = none` (moved-from or
default-constructed) issues no `io_handle::unlock` call. -/
theorem C7_move_ctor_invalidates_source (o g : extent_guard)
    (hinv : g._h = Option.none) :
    (extent_guard.moveCtor o).1 = o
    ∧ (extent_guard.moveCtor o).2 = ⟨Option.none, 0, 0, false⟩
    ∧ extent_guard.dtor g = []
    ∧ extent_guard.dtor extent_guard.mk0 = []
    ∧ extent_guard.dtor (extent_guard.moveCtor o).2 = [] := by
  refine ⟨rfl, rfl, ?_, rfl, rfl⟩
  unfold extent_guard.dtor
  rw [hinv]

/-- Witness for C7 at a live source guard and a moved-from guard. -/
theorem C7_move_ctor_invalidates_source_witness :
    (extent_guard.moveCtor ⟨Option.some 3, 10, 1, true⟩).1 = ⟨Option.some 3, 10, 1, true⟩
    ∧ (extent_guard.moveCtor ⟨Option.some 3, 10, 1, true⟩).2 = ⟨Option.none, 0, 0, false⟩
    ∧ extent_guard.dtor ⟨Option.none, 0, 0, false⟩ = []
    ∧ extent_guard.dtor extent_guard.mk0 = []
    ∧ extent_guard.dtor (extent_guard.moveCtor ⟨Option.some 3, 10, 1, true⟩).2 = [] :=
  C7_move_ctor_invalidates_source ⟨Option.some 3, 10, 1, true⟩
    ⟨Option.none, 0, 0, false⟩ rfl

/-- C8: on a live guard, `extent_guard::unlock()` issues exactly one
`io_handle::unlock(_offset, _length)` call and clears the guard's state, so a
second `unlock()` call, or destruction of the resulting guard, issues no
further call. -/
theorem C8_unlock_idempotent (g : extent_guard) (hh : Nat)
    (hlive : g._h = Option.some hh) :
    g.unlock.2 = [⟨hh, g._offset, g._length⟩]
    ∧ g.unlock.1 = ⟨Option.none, 0, 0, false⟩
    ∧ g.unlock.1.unlock.2 = []
    ∧ extent_guard.dtor g.unlock.1 = [] := by
  unfold extent_guard.unlock extent_guard.dtor extent_guard.release
  rw [hlive]
  exact ⟨rfl, rfl, rfl, rfl⟩

/-- Witness for C8 at a concrete live guard. -/
theorem C8_unlock_idempotent_witness :
    (extent_guard.unlock ⟨Option.some 5, 42, 1, true⟩).2 = [⟨5, 42, 1⟩]
    ∧ (extent_guard.unlock ⟨Option.some 5, 42, 1, true⟩).1 = ⟨Option.none, 0, 0, false⟩
    ∧ (extent_guard.unlock ⟨Option.some 5, 42, 1, true⟩).1.unlock.2 = []
    ∧ extent_guard.dtor (extent_guard.unlock ⟨Option.some 5, 42, 1, true⟩).1 = [] :=
  C8_unlock_idempotent ⟨Option.some 5, 42, 1, true⟩ 5 rfl

/-- C10: move assignment first unlocks the destination's currently held
extent on its io_handle (exactly when the destination is live), then adopts
the source's four fields, and leaves the source invalid. -/
theorem C10_move_assign (dst src : extent_guard) :
    (extent_guard.moveAssign dst src).1 =
      ⟨src._h, src._offset, src._length, src._exclusive⟩
    ∧ (extent_guard.moveAssign dst src).2.1 = ⟨Option.none, 0, 0, false⟩
    ∧ (∀ hh, dst._h = Option.some hh →
        (extent_guard.moveAssign dst src).2.2 = [⟨hh, dst._offset, dst._length⟩])
    ∧ (dst._h = Option.none → (extent_guard.moveAssign dst src).2.2 = []) := by
  refine ⟨rfl, rfl, ?_, ?_⟩
  · intro hh hlive
    unfold extent_guard.moveAssign extent_guard.unlock
    rw [hlive]
  · intro hdead
    unfold extent_guard.moveAssign extent_guard.unlock
    rw [hdead]

/-- Witness for C10 with a live destination and a live source. -/
theorem C10_move_assign_witness :
    (extent_guard.moveAssign ⟨Option.some 1, 7, 1, true⟩ ⟨Option.some 2, 9, 1, false⟩).1 =
      ⟨Option.some 2, 9, 1, false⟩
    ∧ (extent_guard.moveAssign ⟨Option.some 1, 7, 1, true⟩ ⟨Option.some 2, 9, 1, false⟩).2.1 =
      ⟨Option.none, 0, 0, false⟩
    ∧ (extent_guard.moveAssign ⟨Option.some 1, 7, 1, true⟩ ⟨Option.some 2, 9, 1, false⟩).2.2 =
      [⟨1, 7, 1⟩] :=
  ⟨(C10_move_assign ⟨Option.some 1, 7, 1, true⟩ ⟨Option.some 2, 9, 1, false⟩).1,
   (C10_move_assign ⟨Option.some 1, 7, 1, true⟩ ⟨Option.some 2, 9, 1, false⟩).2.1,
   (C10_move_assign ⟨Option.some 1, 7, 1, true⟩ ⟨Option.some 2, 9, 1, false⟩).2.2.1 1 rfl⟩

end AfioProof

namespace AfioProof

/-! ## handle.hpp: `io_handle::io_result`

`size_type` is `size_t` (64-bit); `(size_type) -1` is `2 ^ 64 - 1` and
`+=` wraps modulo `2 ^ 64`.  Only the successful case is modelled: `buffers`
is the buffer list `this->value()` would return, each element a
`(pointer, transferred-length)` pair. -/

/-- `(size_type) -1`, the "not yet computed" sentinel of
`io_result::_bytes_transferred`. -/
def SIZE_SENTINEL : Nat := 2 ^ 64 - 1

/-- `io_result` state: the successful buffer list plus the
`_bytes_transferred` cache field. -/
structure io_result where
  buffers : List (Nat × Nat)
  _bytes_transferred : Nat

/-- A freshly constructed `io_result`: every constructor initialises
`_bytes_transferred((size_type) -1)`. -/
def io_result.fresh (bufs : List (Nat × Nat)) : io_result :=
  ⟨bufs, SIZE_SENTINEL⟩

/-- The loop `for(auto &i : this->value()) _bytes_transferred += i.second;`
starting from `_bytes_transferred = 0`, in wrapping `size_t` arithmetic. -/
def sumTransferred (bufs : List (Nat × Nat)) : Nat :=
  bufs.foldl (fun a p => (a + p.2) % 2 ^ 64) 0

/-- `io_result::bytes_transferred()`: if `_bytes_transferred == (size_type) -1`
recompute the sum and store it; return the stored value.  Returns the value
and the post-call state of the object. -/
def io_result.bytes_transferred (r : io_result) : Nat × io_result :=
  if r._bytes_transferred = SIZE_SENTINEL then
    (sumTransferred r.buffers, ⟨r.buffers, sumTransferred r.buffers⟩)
  else (r._bytes_transferred, r)

/-- Whether a call to `bytes_transferred()` on state `r` enters the
recomputation branch (the `_bytes_transferred == (size_type) -1` test). -/
def io_result.recomputes (r : io_result) : Bool :=
  r._bytes_transferred == SIZE_SENTINEL

/-- C9 counterexample: the claim says the sum is computed on the first call
only and cached, with no recomputation on later calls.  For a successful
buffer list whose transferred lengths sum to `2 ^ 64 - 1` — e.g. the single
buffer `(0, 2 ^ 64 - 1)` — the cached sum equals the `(size_type) -1`
sentinel, so the call after the first one still enters the recomputation
branch: the cache never takes effect on this input. -/
theorem C9_counterexample :
    ((io_result.fresh [(0, 2 ^ 64 - 1)]).bytes_transferred.2.recomputes = true)
    ∧ ¬ ((io_result.fresh [(0, 2 ^ 64 - 1)]).bytes_transferred.2.recomputes = false) := by
  refine ⟨rfl, fun h => ?_⟩
  rw [show (io_result.fresh [(0, 2 ^ 64 - 1)]).bytes_transferred.2.recomputes = true
    from rfl] at h
  exact Bool.noConfusion h

/-- C9 (amended): `bytes_transferred()` always returns the wrapping
(`size_t`) sum of the transferred-length fields of the successful buffer
list, and every subsequent call returns the same value; the sum is cached by
the first call — so later calls skip recomputation — provided the sum is not
`2 ^ 64 - 1`, which collides with the uncomputed-state sentinel and is
recomputed on every call. -/
theorem C9_bytes_transferred (bufs : List (Nat × Nat)) :
    (io_result.fresh bufs).bytes_transferred.1 = sumTransferred bufs
    ∧ (io_result.fresh bufs).bytes_transferred.2.bytes_transferred.1 = sumTransferred bufs
    ∧ (sumTransferred bufs ≠ SIZE_SENTINEL →
        (io_result.fresh bufs).bytes_transferred.2.recomputes = false) := by
  by_cases hs : sumTransferred bufs = SIZE_SENTINEL
  · refine ⟨?_, ?_, fun hne => absurd hs hne⟩ <;>
      simp [io_result.fresh, io_result.bytes_transferred, hs]
  · refine ⟨?_, ?_, fun _ => ?_⟩ <;>
      simp [io_result.fresh, io_result.bytes_transferred, io_result.recomputes, hs]

/-- Witness for C9 (amended) at a two-buffer list: the value is the sum, the
second call returns it again, and no recomputation happens after the first
call. -/
theorem C9_bytes_transferred_witness :
    (io_result.fresh [(0, 2), (0, 3)]).bytes_transferred.1 = 5
    ∧ (io_result.fresh [(0, 2), (0, 3)]).bytes_transferred.2.bytes_transferred.1 = 5
    ∧ (io_result.fresh [(0, 2), (0, 3)]).bytes_transferred.2.recomputes = false := by
  have h := C9_bytes_transferred [(0, 2), (0, 3)]
  refine ⟨?_, ?_, h.2.2 (by decide)⟩
  · rw [h.1]; decide
  · rw [h.2.1]; decide

end AfioProof

namespace AfioProof

/-! ## lock_files.hpp: `algorithm::shared_fs_mutex::lock_files`

`_lock(entities_guard &out, deadline d)` acquires, for each entity, a
one-byte range lock at offset `entity.value` on the shared handle `_h`; on a
failed pass a scoped `detail::Undoer` rolls the partial acquisition back,
the entity order is permuted by `std::random_shuffle` and the pass retried,
until a full pass succeeds or the deadline elapses (`ETIMEDOUT`).

Modelled from the spec, because their implementations are not under `src/`:
* the `deadline` argument (`Option Nat`: `Option.none` is the default
  "wait forever" deadline, `Option.some D` a relative steady-clock deadline
  of `D` nanoseconds — a zero deadline, `Option.some 0`, is the poll/try
  form);
* the steady clock: `elapsed k` is the value of
  `steady_clock::now() - began_steady` observed at the `k`-th deadline check
  (the code compares `now() >= began_steady + nanoseconds(d.nsecs)`);
* `_h.lock(offset, 1, exclusive, try-deadline)`: granted exactly when no
  competing party holds a conflicting byte lock at that offset (two locks
  conflict when either is exclusive); a declined try-lock is the recoverable
  "lock already held by a competitor" signal (`!guard` in the source), not a
  hard error;
* `std::random_shuffle`: a selection shuffle driven by an arbitrary random
  source `rng`, its only contract being that it permutes the sequence;
* `std::this_thread::yield()`: recorded as an explicit trace event. -/

/-- `shared_fs_mutex::entity_type`: a 64-bit id plus an exclusive flag. -/
structure entity_type where
  value : Nat
  exclusive : Bool
deriving DecidableEq

/-- Modelled from the spec: the byte locks held by competing parties on the
shared lock file, as (offset, exclusive) pairs. -/
abbrev CompTable := List (Nat × Bool)

/-- Modelled from the spec: a try-lock request at `off` with mode `excl`
conflicts with a competitor's byte lock iff the offsets are equal and at
least one of the two locks is exclusive. -/
def conflictsWith (comp : CompTable) (off : Nat) (excl : Bool) : Bool :=
  comp.any fun p => p.1 == off && (p.2 || excl)

/-- One `_h.lock(offset, bytes, exclusive, nd)` request; `zeroDeadline` is
true when `nd` is the zero-duration (try) deadline
`deadline(std::chrono::seconds(0))`. -/
structure LockReq where
  offset : Nat
  bytes : Nat
  exclusive : Bool
  zeroDeadline : Bool

/-- Observable actions of `_lock` on `_h` and on the thread scheduler. -/
inductive LockEvent
  | lockReq (r : LockReq) (granted : Bool)
  | unlockCall (offset : Nat) (bytes : Nat)
  | yield

/-- How one acquisition pass ends: all entities locked (`complete`), the
try-lock of the entity at position `n` declined by a competitor
(`contention n`), or the deadline found elapsed just before attempting
position `n` (`timedOutAt n`). -/
inductive PassExit
  | complete
  | contention (n : Nat)
  | timedOutAt (n : Nat)

/-- Reindex a `PassExit` of the tail of an entity list to the whole list. -/
def PassExit.bump : PassExit → PassExit
  | PassExit.complete => PassExit.complete
  | PassExit.contention n => PassExit.contention (n + 1)
  | PassExit.timedOutAt n => PassExit.timedOutAt (n + 1)

/-- The body of one pass: the `for(n = 0; n < out.entities.size(); n++)` loop
of `_lock`.  For each entity, first the deadline check (present only when a
deadline was given; `checks` counts deadline checks so far and indexes the
`elapsed` oracle), then
`_h.lock(out.entities[n].value, 1, out.entities[n].exclusive, nd)` with `nd`
the zero-duration deadline.  Returns the exit, the events issued (lock
requests only — the Undoer's rollback is appended by `runPass`), and the
updated check counter. -/
def passAux (comp : CompTable) (d : Option Nat) (elapsed : Nat → Nat) :
    List entity_type → Nat → PassExit × List LockEvent × Nat
  | [], checks => (PassExit.complete, [], checks)
  | e :: rest, checks =>
    match d with
    | Option.some D =>
      if D ≤ elapsed checks then
        (PassExit.timedOutAt 0, [], checks + 1)
      else if conflictsWith comp e.value e.exclusive then
        (PassExit.contention 0,
          [LockEvent.lockReq ⟨e.value, 1, e.exclusive, true⟩ false], checks + 1)
      else
        let r := passAux comp d elapsed rest (checks + 1)
        (r.1.bump, LockEvent.lockReq ⟨e.value, 1, e.exclusive, true⟩ true :: r.2.1, r.2.2)
    | Option.none =>
      if conflictsWith comp e.value e.exclusive then
        (PassExit.contention 0,
          [LockEvent.lockReq ⟨e.value, 1, e.exclusive, true⟩ false], checks)
      else
        let r := passAux comp d elapsed rest checks
        (r.1.bump, LockEvent.lockReq ⟨e.value, 1, e.exclusive, true⟩ true :: r.2.1, r.2.2)

/-- The scoped `detail::Undoer` rollback of `_lock`:
`for(; n != (size_t) -1; n--) _h.unlock(out.entities[n].value, 1);` —
one unlock per index from `n` down to `0`. -/
def undoEvents (es : List entity_type) (n : Nat) : List LockEvent :=
  ((es.take (n + 1)).reverse).map fun e => LockEvent.unlockCall e.value 1

/-- `lock_files::unlock(entities)`: `for(const auto &i : entities)
_h.unlock(i.value, 1);`. -/
def lock_files_unlock (es : List entity_type) : List LockEvent :=
  es.map fun e => LockEvent.unlockCall e.value 1

structure PassOut where
  exit : PassExit
  events : List LockEvent
  checks : Nat

/-- One full pass of `_lock` including the Undoer: on `complete` the Undoer
is dismissed; on `contention n` (the `goto failed` path) and on
`timedOutAt n` (the early `return make_errored_result<void>(ETIMEDOUT)`) the
Undoer fires and its unlock calls are appended to the trace. -/
def runPass (comp : CompTable) (d : Option Nat) (elapsed : Nat → Nat)
    (es : List entity_type) (checks : Nat) : PassOut :=
  let r := passAux comp d elapsed es checks
  match r.1 with
  | PassExit.complete => ⟨PassExit.complete, r.2.1, r.2.2⟩
  | PassExit.contention n => ⟨PassExit.contention n, r.2.1 ++ undoEvents es n, r.2.2⟩
  | PassExit.timedOutAt n => ⟨PassExit.timedOutAt n, r.2.1 ++ undoEvents es n, r.2.2⟩

/-- Modelled from the C++ standard library contract of `std::random_shuffle`
(external to this repository): a selection shuffle that removes, at each
step, the element at an index chosen by the random source `rng` (`k` indexes
the calls into `rng`).  The fuel argument equals the list length at the top
call, so the fuel-exhausted case is never reached. -/
def shuffleAux (rng : Nat → Nat) : Nat → Nat → List entity_type → List entity_type
  | 0, _, l => l
  | _ + 1, _, [] => []
  | fuel + 1, k, x :: xs =>
    let l := x :: xs
    let i := rng k % l.length
    l.getD i x :: shuffleAux rng fuel (k + 1) (l.eraseIdx i)

/-- `std::random_shuffle(out.entities.begin(), out.entities.end())`. -/
def random_shuffle (rng : Nat → Nat) (k : Nat) (l : List entity_type) :
    List entity_type :=
  shuffleAux rng l.length k l

/-- How `_lock` returns in the model: `success` is `make_result<void>()`,
`timedOut` is `make_errored_result<void>(ETIMEDOUT)`; `outOfFuel` is a model
artifact marking that the retry loop was cut off after `fuel` passes (the
source spins indefinitely). -/
inductive LockResult
  | success
  | timedOut
  | outOfFuel

structure LockOut where
  result : LockResult
  events : List LockEvent
  passes : List (List entity_type)

/-- The `do { ... } while(n < out.entities.size());` retry loop of `_lock`:
run a pass; on completion return success; on a deadline expiry return the
timed-out error; on contention shuffle the entity order, yield, and retry.
`checks` and `rcalls` thread the oracle indices for `elapsed` and `rng`;
`passes` records the entity order used by each pass. -/
def lockLoop (comp : CompTable) (d : Option Nat) (elapsed : Nat → Nat)
    (rng : Nat → Nat) :
    Nat → List entity_type → Nat → Nat → LockOut
  | 0, _, _, _ => ⟨LockResult.outOfFuel, [], []⟩
  | fuel + 1, es, checks, rcalls =>
    let p := runPass comp d elapsed es checks
    match p.exit with
    | PassExit.complete => ⟨LockResult.success, p.events, [es]⟩
    | PassExit.timedOutAt _ => ⟨LockResult.timedOut, p.events, [es]⟩
    | PassExit.contention _ =>
      let es1 := random_shuffle rng rcalls es
      let rest := lockLoop comp d elapsed rng fuel es1 p.checks (rcalls + es.length)
      ⟨rest.result, p.events ++ LockEvent.yield :: rest.events, es :: rest.passes⟩

/-- `lock_files::_lock(out, d)` as a whole, starting both oracle counters at
zero. -/
def lock_files_lock (comp : CompTable) (d : Option Nat) (elapsed : Nat → Nat)
    (rng : Nat → Nat) (fuel : Nat) (es : List entity_type) : LockOut :=
  lockLoop comp d elapsed rng fuel es 0 0

/-! ### Semantics of the event trace: the caller's held byte locks -/

/-- The caller's held byte locks as (offset, exclusive) pairs, updated by one
event: a granted lock request adds its range; `_h.unlock(off, 1)` releases
the caller's lock at `off` (a no-op when the caller holds no lock there — on
a POSIX byte-lock table unlocking an unheld range does nothing). -/
def applyEvent (held : List (Nat × Bool)) : LockEvent → List (Nat × Bool)
  | LockEvent.lockReq r granted =>
    if granted then held ++ [(r.offset, r.exclusive)] else held
  | LockEvent.unlockCall off _ => held.filter fun p => !(p.1 == off)
  | LockEvent.yield => held

/-- The caller's held byte locks after a trace of events. -/
def runEvents (held : List (Nat × Bool)) (evs : List LockEvent) : List (Nat × Bool) :=
  evs.foldl applyEvent held

/-- The held-lock entry created by granting an entity's lock request. -/
def mkHeld (e : entity_type) : Nat × Bool := (e.value, e.exclusive)

/-- The `_h.lock` requests issued during a pass, in order. -/
def passReqs (comp : CompTable) (d : Option Nat) (elapsed : Nat → Nat)
    (es : List entity_type) (checks : Nat) : List LockReq :=
  (passAux comp d elapsed es checks).2.1.filterMap fun ev =>
    match ev with
    | LockEvent.lockReq r _ => Option.some r
    | _ => Option.none

def isYield : LockEvent → Bool
  | LockEvent.yield => true
  | _ => false

/-- Number of `std::this_thread::yield()` calls in a trace. -/
def countYield (evs : List LockEvent) : Nat := evs.countP isYield

end AfioProof

namespace AfioProof

/-- Whatever the random source does, the selection shuffle modelling
`std::random_shuffle` permutes its input (given enough fuel). -/
theorem shuffleAux_perm (rng : Nat → Nat) :
    ∀ (fuel k : Nat) (l : List entity_type), l.length ≤ fuel →
      List.Perm (shuffleAux rng fuel k l) l := by
  intro fuel
  induction fuel with
  | zero =>
    intro k l hl
    exact List.Perm.refl l
  | succ fuel ih =>
    intro k l hl
    match l with
    | [] => exact List.Perm.refl []
    | x :: xs =>
      have hpos : 0 < (x :: xs).length := by simp
      have hlt : rng k % (x :: xs).length < (x :: xs).length := Nat.mod_lt _ hpos
      have hgd : (x :: xs).getD (rng k % (x :: xs).length) x =
          (x :: xs)[rng k % (x :: xs).length] := List.getD_eq_getElem _ _ hlt
      have hlen : ((x :: xs).eraseIdx (rng k % (x :: xs).length)).length ≤ fuel := by
        have := List.length_eraseIdx_add_one hlt
        omega
      have h1 : List.Perm (shuffleAux rng fuel (k + 1)
            ((x :: xs).eraseIdx (rng k % (x :: xs).length)))
          ((x :: xs).eraseIdx (rng k % (x :: xs).length)) := ih (k + 1) _ hlen
      have h2 : List.Perm ((x :: xs).eraseIdx (rng k % (x :: xs).length))
          ((x :: xs).erase (x :: xs)[rng k % (x :: xs).length]) :=
        (List.erase_getElem hlt).symm
      have h3 : List.Perm ((x :: xs)[rng k % (x :: xs).length] ::
            (x :: xs).erase (x :: xs)[rng k % (x :: xs).length]) (x :: xs) :=
        (List.perm_cons_erase (List.getElem_mem hlt)).symm
      show List.Perm ((x :: xs).getD (rng k % (x :: xs).length) x ::
          shuffleAux rng fuel (k + 1)
            ((x :: xs).eraseIdx (rng k % (x :: xs).length))) (x :: xs)
      rw [hgd]
      exact ((h1.trans h2).cons _).trans h3

/-- `random_shuffle` always returns a permutation of its input. -/
theorem random_shuffle_perm (rng : Nat → Nat) (k : Nat) (l : List entity_type) :
    List.Perm (random_shuffle rng k l) l :=
  shuffleAux_perm rng l.length k l (Nat.le_refl _)

/-- C1: during one acquisition pass, `_lock` issues its `_h.lock` requests
for a prefix of the current entity sequence, in sequence order, and every
request is a byte-range lock of length 1 at offset `entity.value`, carries
the entity's exclusive flag, and uses the zero-duration (try) deadline — in
particular every request after the first successful one does. -/
theorem C1_pass_lock_requests (comp : CompTable) (d : Option Nat)
    (elapsed : Nat → Nat) :
    ∀ (es : List entity_type) (checks : Nat),
      ∃ m, m ≤ es.length ∧
        passReqs comp d elapsed es checks =
          (es.take m).map fun e => (⟨e.value, 1, e.exclusive, true⟩ : LockReq) := by
  intro es
  induction es with
  | nil =>
    intro checks
    exact ⟨0, Nat.le_refl _, rfl⟩
  | cons e rest ih =>
    intro checks
    match d with
    | Option.some D =>
      by_cases h1 : D ≤ elapsed checks
      · exact ⟨0, Nat.zero_le _, by simp [passReqs, passAux, h1]⟩
      · by_cases h2 : conflictsWith comp e.value e.exclusive
        · exact ⟨1, by simp, by simp [passReqs, passAux, h1, h2]⟩
        · obtain ⟨m, hm, he⟩ := ih (checks + 1)
          refine ⟨m + 1, by simp; omega, ?_⟩
          simp only [passReqs, passAux, h1, h2, if_false, if_neg,
            List.filterMap_cons] at he ⊢
          simp only [List.take_succ_cons, List.map_cons]
          exact congrArg _ he
    | Option.none =>
      by_cases h2 : conflictsWith comp e.value e.exclusive
      · exact ⟨1, by simp, by simp [passReqs, passAux, h2]⟩
      · obtain ⟨m, hm, he⟩ := ih checks
        refine ⟨m + 1, by simp; omega, ?_⟩
        simp only [passReqs, passAux, h2, if_neg, List.filterMap_cons] at he ⊢
        simp only [List.take_succ_cons, List.map_cons]
        exact congrArg _ he

end AfioProof


namespace AfioProof

/-- A failing pass declined (or timed out before) the entity at a position
`m` inside the sequence, and its lock requests granted exactly the entities
before position `m`, in order: starting from held set `h`, the pass's
request events leave the caller holding `h` plus entities `0..m-1`. -/
theorem passAux_failed (comp : CompTable) (d : Option Nat) (elapsed : Nat → Nat) :
    ∀ (es : List entity_type) (checks m : Nat),
      ((passAux comp d elapsed es checks).1 = PassExit.contention m ∨
        (passAux comp d elapsed es checks).1 = PassExit.timedOutAt m) →
      m < es.length ∧
        ∀ h, runEvents h (passAux comp d elapsed es checks).2.1 =
          h ++ (es.take m).map mkHeld := by
  intro es
  induction es with
  | nil =>
    intro checks m hm
    rcases hm with hm | hm <;> simp [passAux] at hm
  | cons e rest ih =>
    intro checks m hm
    cases d with
    | some D =>
      by_cases h1 : D ≤ elapsed checks
      · simp [passAux, h1] at hm ⊢
        subst hm
        exact ⟨by omega, fun h => by simp [runEvents]⟩
      · by_cases h2 : conflictsWith comp e.value e.exclusive
        · simp [passAux, h1, h2] at hm ⊢
          subst hm
          exact ⟨by omega, fun h => by simp [runEvents, applyEvent]⟩
        · simp only [passAux, h1, h2] at hm ⊢
          cases hr : (passAux comp (Option.some D) elapsed rest (checks + 1)).1 with
          | complete =>
            rw [hr] at hm
            rcases hm with hm | hm <;> simp [PassExit.bump] at hm
          | contention j =>
            rw [hr] at hm
            simp [PassExit.bump] at hm
            subst hm
            obtain ⟨hjlen, hev⟩ := ih (checks + 1) j (Or.inl hr)
            refine ⟨by simp; omega, fun h => ?_⟩
            have hev2 := hev (h ++ [mkHeld e])
            simp only [runEvents] at hev2 ⊢
            show List.foldl applyEvent h
                (LockEvent.lockReq ⟨e.value, 1, e.exclusive, true⟩ true ::
                  (passAux comp (Option.some D) elapsed rest (checks + 1)).2.1) =
              h ++ List.map mkHeld (List.take (j + 1) (e :: rest))
            rw [List.foldl_cons]
            have happ : applyEvent h
                (LockEvent.lockReq ⟨e.value, 1, e.exclusive, true⟩ true) =
                h ++ [mkHeld e] := by simp [applyEvent, mkHeld]
            rw [happ, hev2]
            simp [mkHeld, List.take_succ_cons]
          | timedOutAt j =>
            rw [hr] at hm
            simp [PassExit.bump] at hm
            subst hm
            obtain ⟨hjlen, hev⟩ := ih (checks + 1) j (Or.inr hr)
            refine ⟨by simp; omega, fun h => ?_⟩
            have hev2 := hev (h ++ [mkHeld e])
            simp only [runEvents] at hev2 ⊢
            show List.foldl applyEvent h
                (LockEvent.lockReq ⟨e.value, 1, e.exclusive, true⟩ true ::
                  (passAux comp (Option.some D) elapsed rest (checks + 1)).2.1) =
              h ++ List.map mkHeld (List.take (j + 1) (e :: rest))
            rw [List.foldl_cons]
            have happ : applyEvent h
                (LockEvent.lockReq ⟨e.value, 1, e.exclusive, true⟩ true) =
                h ++ [mkHeld e] := by simp [applyEvent, mkHeld]
            rw [happ, hev2]
            simp [mkHeld, List.take_succ_cons]
    | none =>
      by_cases h2 : conflictsWith comp e.value e.exclusive
      · simp [passAux, h2] at hm ⊢
        subst hm
        exact ⟨by omega, fun h => by simp [runEvents, applyEvent]⟩
      · simp only [passAux, h2] at hm ⊢
        cases hr : (passAux comp Option.none elapsed rest checks).1 with
        | complete =>
          rw [hr] at hm
          rcases hm with hm | hm <;> simp [PassExit.bump] at hm
        | contention j =>
          rw [hr] at hm
          simp [PassExit.bump] at hm
          subst hm
          obtain ⟨hjlen, hev⟩ := ih checks j (Or.inl hr)
          refine ⟨by simp; omega, fun h => ?_⟩
          have hev2 := hev (h ++ [mkHeld e])
          simp only [runEvents] at hev2 ⊢
          show List.foldl applyEvent h
              (LockEvent.lockReq ⟨e.value, 1, e.exclusive, true⟩ true ::
                (passAux comp Option.none elapsed rest checks).2.1) =
            h ++ List.map mkHeld (List.take (j + 1) (e :: rest))
          rw [List.foldl_cons]
          have happ : applyEvent h
              (LockEvent.lockReq ⟨e.value, 1, e.exclusive, true⟩ true) =
              h ++ [mkHeld e] := by simp [applyEvent, mkHeld]
          rw [happ, hev2]
          simp [mkHeld, List.take_succ_cons]
        | timedOutAt j =>
          rw [hr] at hm
          simp [PassExit.bump] at hm
          subst hm
          obtain ⟨hjlen, hev⟩ := ih checks j (Or.inr hr)
          refine ⟨by simp; omega, fun h => ?_⟩
          have hev2 := hev (h ++ [mkHeld e])
          simp only [runEvents] at hev2 ⊢
          show List.foldl applyEvent h
              (LockEvent.lockReq ⟨e.value, 1, e.exclusive, true⟩ true ::
                (passAux comp Option.none elapsed rest checks).2.1) =
            h ++ List.map mkHeld (List.take (j + 1) (e :: rest))
          rw [List.foldl_cons]
          have happ : applyEvent h
              (LockEvent.lockReq ⟨e.value, 1, e.exclusive, true⟩ true) =
              h ++ [mkHeld e] := by simp [applyEvent, mkHeld]
          rw [happ, hev2]
          simp [mkHeld, List.take_succ_cons]

end AfioProof

namespace AfioProof

/-- A completing pass grants every entity's lock request in sequence order:
starting from held set `h`, the caller ends up holding `h` plus every
entity. -/
theorem passAux_complete (comp : CompTable) (d : Option Nat) (elapsed : Nat → Nat) :
    ∀ (es : List entity_type) (checks : Nat),
      (passAux comp d elapsed es checks).1 = PassExit.complete →
      ∀ h, runEvents h (passAux comp d elapsed es checks).2.1 = h ++ es.map mkHeld := by
  intro es
  induction es with
  | nil =>
    intro checks _ h
    simp [passAux, runEvents]
  | cons e rest ih =>
    intro checks hc h
    cases d with
    | some D =>
      by_cases h1 : D ≤ elapsed checks
      · simp [passAux, h1] at hc
      · by_cases h2 : conflictsWith comp e.value e.exclusive
        · simp [passAux, h1, h2] at hc
        · simp only [passAux, h1, h2] at hc ⊢
          cases hr : (passAux comp (Option.some D) elapsed rest (checks + 1)).1 with
          | complete =>
            have hev2 := ih (checks + 1) hr (h ++ [mkHeld e])
            simp only [runEvents] at hev2 ⊢
            show List.foldl applyEvent h
                (LockEvent.lockReq ⟨e.value, 1, e.exclusive, true⟩ true ::
                  (passAux comp (Option.some D) elapsed rest (checks + 1)).2.1) =
              h ++ List.map mkHeld (e :: rest)
            rw [List.foldl_cons]
            have happ : applyEvent h
                (LockEvent.lockReq ⟨e.value, 1, e.exclusive, true⟩ true) =
                h ++ [mkHeld e] := by simp [applyEvent, mkHeld]
            rw [happ, hev2]
            simp [mkHeld]
          | contention j =>
            rw [hr] at hc
            simp [PassExit.bump] at hc
          | timedOutAt j =>
            rw [hr] at hc
            simp [PassExit.bump] at hc
    | none =>
      by_cases h2 : conflictsWith comp e.value e.exclusive
      · simp [passAux, h2] at hc
      · simp only [passAux, h2] at hc ⊢
        cases hr : (passAux comp Option.none elapsed rest checks).1 with
        | complete =>
          have hev2 := ih checks hr (h ++ [mkHeld e])
          simp only [runEvents] at hev2 ⊢
          show List.foldl applyEvent h
              (LockEvent.lockReq ⟨e.value, 1, e.exclusive, true⟩ true ::
                (passAux comp Option.none elapsed rest checks).2.1) =
            h ++ List.map mkHeld (e :: rest)
          rw [List.foldl_cons]
          have happ : applyEvent h
              (LockEvent.lockReq ⟨e.value, 1, e.exclusive, true⟩ true) =
              h ++ [mkHeld e] := by simp [applyEvent, mkHeld]
          rw [happ, hev2]
          simp [mkHeld]
        | contention j =>
          rw [hr] at hc
          simp [PassExit.bump] at hc
        | timedOutAt j =>
          rw [hr] at hc
          simp [PassExit.bump] at hc

/-- Unlocking, in any order, a set of offsets that covers every held lock's
offset leaves the caller holding nothing. -/
theorem runEvents_unlocks_nil :
    ∀ (offs : List entity_type) (h : List (Nat × Bool)),
      (∀ p ∈ h, p.1 ∈ offs.map entity_type.value) →
      runEvents h (offs.map fun e => LockEvent.unlockCall e.value 1) = [] := by
  intro offs
  induction offs with
  | nil =>
    intro h hcov
    have : h = [] := by
      rw [List.eq_nil_iff_forall_not_mem]
      intro a ha
      exact absurd (hcov a ha) (by simp)
    rw [this]
    rfl
  | cons o os ih =>
    intro h hcov
    simp only [List.map_cons, runEvents, List.foldl_cons]
    have hfil : applyEvent h (LockEvent.unlockCall o.value 1) =
        h.filter fun p => !(p.1 == o.value) := rfl
    rw [hfil]
    apply ih
    intro p hp
    rw [List.mem_filter] at hp
    have hne : p.1 ≠ o.value := by
      have := hp.2
      simpa using this
    have := hcov p hp.1
    simp only [List.map_cons, List.mem_cons] at this
    rcases this with hh | hh
    · exact absurd hh hne
    · exact hh

/-- `runPass` exits exactly as the pass body does. -/
theorem runPass_exit (comp : CompTable) (d : Option Nat) (elapsed : Nat → Nat)
    (es : List entity_type) (checks : Nat) :
    (runPass comp d elapsed es checks).exit = (passAux comp d elapsed es checks).1 := by
  rcases hr : (passAux comp d elapsed es checks).1 with _ | n | n <;>
    simp [runPass, hr]

/-- A completing `runPass` dismisses the Undoer: its trace is exactly the
pass body's lock requests. -/
theorem runPass_complete_events (comp : CompTable) (d : Option Nat)
    (elapsed : Nat → Nat) (es : List entity_type) (checks : Nat)
    (hc : (passAux comp d elapsed es checks).1 = PassExit.complete) :
    (runPass comp d elapsed es checks).events = (passAux comp d elapsed es checks).2.1 := by
  simp [runPass, hc]

/-- A failing `runPass` appends the Undoer's rollback — unlock calls for
positions `n` down to `0`, i.e. the normal release path `lock_files::unlock`
run on the reversed prefix — and the caller is left holding none of the
locks acquired in the pass; the locks it did acquire (positions `0..n-1`)
are released in reverse order of acquisition. -/
theorem runPass_failed (comp : CompTable) (d : Option Nat) (elapsed : Nat → Nat)
    (es : List entity_type) (checks n : Nat)
    (hfail : (passAux comp d elapsed es checks).1 = PassExit.contention n ∨
      (passAux comp d elapsed es checks).1 = PassExit.timedOutAt n) :
    (runPass comp d elapsed es checks).events =
      (passAux comp d elapsed es checks).2.1 ++
        lock_files_unlock ((es.take (n + 1)).reverse)
    ∧ runEvents [] (passAux comp d elapsed es checks).2.1 = (es.take n).map mkHeld
    ∧ runEvents [] (runPass comp d elapsed es checks).events = [] := by
  obtain ⟨hlen, hev⟩ := passAux_failed comp d elapsed es checks n hfail
  have hevents : (runPass comp d elapsed es checks).events =
      (passAux comp d elapsed es checks).2.1 ++ undoEvents es n := by
    rcases hfail with hf | hf <;> simp [runPass, hf]
  have hundo : undoEvents es n = lock_files_unlock ((es.take (n + 1)).reverse) := rfl
  have hacq : runEvents [] (passAux comp d elapsed es checks).2.1 =
      (es.take n).map mkHeld := by
    have := hev []
    simpa using this
  refine ⟨hundo ▸ hevents, hacq, ?_⟩
  rw [hevents]
  show List.foldl applyEvent []
      ((passAux comp d elapsed es checks).2.1 ++ undoEvents es n) = []
  rw [List.foldl_append]
  have hfold : List.foldl applyEvent [] (passAux comp d elapsed es checks).2.1 =
      (es.take n).map mkHeld := hacq
  rw [hfold]
  apply runEvents_unlocks_nil
  intro p hp
  rw [List.mem_map] at hp
  obtain ⟨e, he, hpe⟩ := hp
  have hmem : e ∈ es.take (n + 1) := by
    have h1 : es.take n = (es.take (n + 1)).take n := by
      rw [List.take_take]
      congr 1
      omega
    exact List.take_subset n _ (h1 ▸ he)
  rw [List.mem_map]
  exact ⟨e, List.mem_reverse.mpr hmem, by rw [← hpe]; rfl⟩

end AfioProof

namespace AfioProof

/-- If `_lock` returns the timed-out error, the event trace nets to an empty
held-lock set: the in-flight pass's partial acquisition was rolled back. -/
theorem lockLoop_timedOut_held (comp : CompTable) (d : Option Nat)
    (elapsed rng : Nat → Nat) :
    ∀ (fuel : Nat) (es : List entity_type) (checks rcalls : Nat),
      (lockLoop comp d elapsed rng fuel es checks rcalls).result = LockResult.timedOut →
      runEvents [] (lockLoop comp d elapsed rng fuel es checks rcalls).events = [] := by
  intro fuel
  induction fuel with
  | zero =>
    intro es checks rcalls hres
    simp [lockLoop] at hres
  | succ fuel ih =>
    intro es checks rcalls hres
    rcases hp : (runPass comp d elapsed es checks).exit with _ | n | n
    · simp [lockLoop, hp] at hres
    · have hx : (passAux comp d elapsed es checks).1 = PassExit.contention n := by
        rw [← runPass_exit]; exact hp
      have hnil := (runPass_failed comp d elapsed es checks n (Or.inl hx)).2.2
      simp only [lockLoop, hp] at hres ⊢
      show List.foldl applyEvent []
          ((runPass comp d elapsed es checks).events ++ LockEvent.yield ::
            (lockLoop comp d elapsed rng fuel
              (random_shuffle rng rcalls es)
              (runPass comp d elapsed es checks).checks (rcalls + es.length)).events) = []
      rw [List.foldl_append]
      have h0 : List.foldl applyEvent [] (runPass comp d elapsed es checks).events = [] :=
        hnil
      rw [h0, List.foldl_cons]
      exact ih _ _ _ hres
    · have hx : (passAux comp d elapsed es checks).1 = PassExit.timedOutAt n := by
        rw [← runPass_exit]; exact hp
      have hnil := (runPass_failed comp d elapsed es checks n (Or.inr hx)).2.2
      simp only [lockLoop, hp]
      exact hnil

/-- If `_lock` returns success, the caller ends up holding every entity of
the sequence passed to it. -/
theorem lockLoop_success_held (comp : CompTable) (d : Option Nat)
    (elapsed rng : Nat → Nat) :
    ∀ (fuel : Nat) (es : List entity_type) (checks rcalls : Nat),
      (lockLoop comp d elapsed rng fuel es checks rcalls).result = LockResult.success →
      ∀ e ∈ es, mkHeld e ∈
        runEvents [] (lockLoop comp d elapsed rng fuel es checks rcalls).events := by
  intro fuel
  induction fuel with
  | zero =>
    intro es checks rcalls hres
    simp [lockLoop] at hres
  | succ fuel ih =>
    intro es checks rcalls hres e he
    rcases hp : (runPass comp d elapsed es checks).exit with _ | n | n
    · have hc : (passAux comp d elapsed es checks).1 = PassExit.complete := by
        rw [← runPass_exit]; exact hp
      have hev := passAux_complete comp d elapsed es checks hc []
      have hevents := runPass_complete_events comp d elapsed es checks hc
      simp only [lockLoop, hp]
      show mkHeld e ∈ runEvents [] (runPass comp d elapsed es checks).events
      rw [hevents, hev]
      simp only [List.nil_append]
      exact List.mem_map.mpr ⟨e, he, rfl⟩
    · have hx : (passAux comp d elapsed es checks).1 = PassExit.contention n := by
        rw [← runPass_exit]; exact hp
      have hnil := (runPass_failed comp d elapsed es checks n (Or.inl hx)).2.2
      simp only [lockLoop, hp] at hres ⊢
      show mkHeld e ∈ List.foldl applyEvent []
          ((runPass comp d elapsed es checks).events ++ LockEvent.yield ::
            (lockLoop comp d elapsed rng fuel
              (random_shuffle rng rcalls es)
              (runPass comp d elapsed es checks).checks (rcalls + es.length)).events)
      rw [List.foldl_append]
      have h0 : List.foldl applyEvent [] (runPass comp d elapsed es checks).events = [] :=
        hnil
      rw [h0, List.foldl_cons]
      have he1 : e ∈ random_shuffle rng rcalls es :=
        (random_shuffle_perm rng rcalls es).mem_iff.mpr he
      exact ih _ _ _ hres e he1
    · simp [lockLoop, hp] at hres

/-- Every pass of the retry loop uses a permutation of the entity sequence
it was started with: the shuffles preserve the requested multiset. -/
theorem lockLoop_passes_perm (comp : CompTable) (d : Option Nat)
    (elapsed rng : Nat → Nat) :
    ∀ (fuel : Nat) (es : List entity_type) (checks rcalls : Nat),
      ∀ p ∈ (lockLoop comp d elapsed rng fuel es checks rcalls).passes,
        List.Perm p es := by
  intro fuel
  induction fuel with
  | zero =>
    intro es checks rcalls p hp
    simp [lockLoop] at hp
  | succ fuel ih =>
    intro es checks rcalls p hp
    rcases hx : (runPass comp d elapsed es checks).exit with _ | n | n
    · simp [lockLoop, hx] at hp
      subst hp
      exact List.Perm.refl _
    · simp only [lockLoop, hx] at hp
      rcases List.mem_cons.mp hp with hh | hh
      · subst hh
        exact List.Perm.refl _
      · exact (ih _ _ _ p hh).trans (random_shuffle_perm rng rcalls es)
    · simp [lockLoop, hx] at hp
      subst hp
      exact List.Perm.refl _

end AfioProof

namespace AfioProof

/-- The pass body emits only lock requests — never a yield. -/
theorem passAux_no_yield (comp : CompTable) (d : Option Nat) (elapsed : Nat → Nat) :
    ∀ (es : List entity_type) (checks : Nat) (ev : LockEvent),
      ev ∈ (passAux comp d elapsed es checks).2.1 → isYield ev = false := by
  intro es
  induction es with
  | nil =>
    intro checks ev hev
    simp [passAux] at hev
  | cons e rest ih =>
    intro checks ev hev
    cases d with
    | some D =>
      by_cases h1 : D ≤ elapsed checks
      · simp [passAux, h1] at hev
      · by_cases h2 : conflictsWith comp e.value e.exclusive
        · simp [passAux, h1, h2] at hev
          subst hev
          rfl
        · simp only [passAux, h1, h2] at hev
          rcases List.mem_cons.mp hev with hh | hh
          · subst hh; rfl
          · exact ih (checks + 1) ev hh
    | none =>
      by_cases h2 : conflictsWith comp e.value e.exclusive
      · simp [passAux, h2] at hev
        subst hev
        rfl
      · simp only [passAux, h2] at hev
        rcases List.mem_cons.mp hev with hh | hh
        · subst hh; rfl
        · exact ih checks ev hh

/-- A pass's trace, rollback included, contains no yield. -/
theorem runPass_no_yield (comp : CompTable) (d : Option Nat) (elapsed : Nat → Nat)
    (es : List entity_type) (checks : Nat) :
    countYield (runPass comp d elapsed es checks).events = 0 := by
  have hundo : ∀ n ev, ev ∈ undoEvents es n → isYield ev = false := by
    intro n ev hev
    simp only [undoEvents, List.mem_map] at hev
    obtain ⟨e, _, he⟩ := hev
    rw [← he]
    rfl
  rcases hr : (passAux comp d elapsed es checks).1 with _ | n | n
  · rw [runPass_complete_events comp d elapsed es checks hr]
    exact List.countP_eq_zero.mpr fun a ha => by
      simp [passAux_no_yield comp d elapsed es checks a ha]
  · rw [(runPass_failed comp d elapsed es checks n (Or.inl hr)).1]
    unfold countYield
    rw [List.countP_append]
    have h1 : List.countP isYield (passAux comp d elapsed es checks).2.1 = 0 :=
      List.countP_eq_zero.mpr fun a ha => by
        simp [passAux_no_yield comp d elapsed es checks a ha]
    have h2 : List.countP isYield (lock_files_unlock ((es.take (n + 1)).reverse)) = 0 :=
      List.countP_eq_zero.mpr fun a ha => by
        simp [hundo n a ha]
    omega
  · rw [(runPass_failed comp d elapsed es checks n (Or.inr hr)).1]
    unfold countYield
    rw [List.countP_append]
    have h1 : List.countP isYield (passAux comp d elapsed es checks).2.1 = 0 :=
      List.countP_eq_zero.mpr fun a ha => by
        simp [passAux_no_yield comp d elapsed es checks a ha]
    have h2 : List.countP isYield (lock_files_unlock ((es.take (n + 1)).reverse)) = 0 :=
      List.countP_eq_zero.mpr fun a ha => by
        simp [hundo n a ha]
    omega

/-- When the loop returns (success or timeout), there is exactly one yield
between consecutive passes: yields = passes − 1. -/
theorem lockLoop_yield_count (comp : CompTable) (d : Option Nat)
    (elapsed rng : Nat → Nat) :
    ∀ (fuel : Nat) (es : List entity_type) (checks rcalls : Nat),
      (lockLoop comp d elapsed rng fuel es checks rcalls).result ≠ LockResult.outOfFuel →
      countYield (lockLoop comp d elapsed rng fuel es checks rcalls).events + 1 =
        (lockLoop comp d elapsed rng fuel es checks rcalls).passes.length := by
  intro fuel
  induction fuel with
  | zero =>
    intro es checks rcalls hres
    simp [lockLoop] at hres
  | succ fuel ih =>
    intro es checks rcalls hres
    rcases hx : (runPass comp d elapsed es checks).exit with _ | n | n
    · simp only [lockLoop, hx]
      simp [runPass_no_yield comp d elapsed es checks]
    · simp only [lockLoop, hx] at hres ⊢
      have h0 := runPass_no_yield comp d elapsed es checks
      have hih := ih (random_shuffle rng rcalls es)
        (runPass comp d elapsed es checks).checks (rcalls + es.length) hres
      have hy : ∀ l : List LockEvent,
          List.countP isYield (LockEvent.yield :: l) = List.countP isYield l + 1 :=
        fun l => by simp [List.countP_cons, isYield]
      unfold countYield at h0 hih ⊢
      rw [List.countP_append, hy, h0]
      simp only [List.length_cons]
      omega
    · simp only [lockLoop, hx]
      simp [runPass_no_yield comp d elapsed es checks]

/-- With the default (infinite) deadline the pass body never times out. -/
theorem passAux_no_timeout (comp : CompTable) (elapsed : Nat → Nat) :
    ∀ (es : List entity_type) (checks n : Nat),
      (passAux comp Option.none elapsed es checks).1 ≠ PassExit.timedOutAt n := by
  intro es
  induction es with
  | nil =>
    intro checks n h
    simp [passAux] at h
  | cons e rest ih =>
    intro checks n h
    by_cases h2 : conflictsWith comp e.value e.exclusive
    · simp [passAux, h2] at h
    · simp only [passAux, h2] at h
      rcases hr : (passAux comp Option.none elapsed rest checks).1 with _ | j | j <;>
        rw [hr] at h <;> simp [PassExit.bump] at h
      exact ih checks j hr

/-- With the default (infinite) deadline `_lock` never returns the timed-out
error. -/
theorem lockLoop_no_timeout (comp : CompTable) (elapsed rng : Nat → Nat) :
    ∀ (fuel : Nat) (es : List entity_type) (checks rcalls : Nat),
      (lockLoop comp Option.none elapsed rng fuel es checks rcalls).result ≠
        LockResult.timedOut := by
  intro fuel
  induction fuel with
  | zero =>
    intro es checks rcalls h
    simp [lockLoop] at h
  | succ fuel ih =>
    intro es checks rcalls h
    rcases hx : (runPass comp Option.none elapsed es checks).exit with _ | n | n
    · simp [lockLoop, hx] at h
    · simp only [lockLoop, hx] at h
      exact ih _ _ _ h
    · have := passAux_no_timeout comp elapsed es checks n
      rw [← runPass_exit] at this
      exact this hx

end AfioProof

namespace AfioProof

/-- C2: a pass that does not complete — a try-lock declined by a competitor
(`contention n`) or the deadline found elapsed mid-pass (`timedOutAt n`) —
runs the Undoer before returning or retrying: its trace ends with the normal
release path (`_h.unlock(entity.value, 1)` per entity) applied to the
reversed prefix of attempted positions, the locks acquired earlier in the
pass (positions `0..n-1`, in acquisition order) are thereby all released in
reverse order of acquisition, and the pass nets an empty held set;
consequently after `_lock` returns the timed-out error the caller holds none
of the in-flight pass's locks. -/
theorem C2_failed_pass_rollback (comp : CompTable) (d : Option Nat)
    (elapsed rng : Nat → Nat) (fuel : Nat) (es : List entity_type) (checks n : Nat)
    (hfail : (runPass comp d elapsed es checks).exit = PassExit.contention n ∨
      (runPass comp d elapsed es checks).exit = PassExit.timedOutAt n) :
    ((runPass comp d elapsed es checks).events =
        (passAux comp d elapsed es checks).2.1 ++
          lock_files_unlock ((es.take (n + 1)).reverse)
      ∧ runEvents [] (passAux comp d elapsed es checks).2.1 = (es.take n).map mkHeld
      ∧ runEvents [] (runPass comp d elapsed es checks).events = [])
    ∧ ((lock_files_lock comp d elapsed rng fuel es).result = LockResult.timedOut →
        runEvents [] (lock_files_lock comp d elapsed rng fuel es).events = []) := by
  have hfail' : (passAux comp d elapsed es checks).1 = PassExit.contention n ∨
      (passAux comp d elapsed es checks).1 = PassExit.timedOutAt n := by
    rw [← runPass_exit comp d elapsed es checks]
    exact hfail
  refine ⟨runPass_failed comp d elapsed es checks n hfail', fun hto => ?_⟩
  exact lockLoop_timedOut_held comp d elapsed rng fuel es 0 0 hto

/-- Witness for C2: one competitor holds offset 5 exclusively; the pass over
entities `3, 5` locks 3, is declined on 5, and the Undoer unlocks 5 then 3,
leaving nothing held; with deadline 2ns and an advancing clock the whole
`_lock` call then times out with nothing held. -/
theorem C2_failed_pass_rollback_witness :
    ((runPass [(5, true)] (Option.some 2) (fun k => k) [⟨3, true⟩, ⟨5, true⟩] 0).events =
        (passAux [(5, true)] (Option.some 2) (fun k => k) [⟨3, true⟩, ⟨5, true⟩] 0).2.1 ++
          lock_files_unlock ((([⟨3, true⟩, ⟨5, true⟩] : List entity_type).take 2).reverse)
      ∧ runEvents []
          (passAux [(5, true)] (Option.some 2) (fun k => k) [⟨3, true⟩, ⟨5, true⟩] 0).2.1 =
          (([⟨3, true⟩, ⟨5, true⟩] : List entity_type).take 1).map mkHeld
      ∧ runEvents []
          (runPass [(5, true)] (Option.some 2) (fun k => k) [⟨3, true⟩, ⟨5, true⟩] 0).events = [])
    ∧ runEvents []
        (lock_files_lock [(5, true)] (Option.some 2) (fun k => k) (fun _ => 1) 2
          [⟨3, true⟩, ⟨5, true⟩]).events = [] :=
  ⟨(C2_failed_pass_rollback [(5, true)] (Option.some 2) (fun k => k) (fun _ => 1) 2
      [⟨3, true⟩, ⟨5, true⟩] 0 1 (Or.inl rfl)).1,
   (C2_failed_pass_rollback [(5, true)] (Option.some 2) (fun k => k) (fun _ => 1) 2
      [⟨3, true⟩, ⟨5, true⟩] 0 1 (Or.inl rfl)).2 rfl⟩

/-- C3: a `lock` call with the zero (poll/try) deadline, when some requested
entity is already held exclusively by another party, returns the timed-out
error immediately — during its first and only pass, before any lock request
is issued (the trace is just the Undoer's single unlock of position 0) — and
leaves the caller holding no per-entity lock, so a try-lock by a second
caller against the caller's residual holds is always granted. -/
theorem C3_zero_deadline_TimedOut (comp : CompTable) (elapsed rng : Nat → Nat)
    (fuel : Nat) (es : List entity_type) (e : entity_type)
    (he : e ∈ es) (hheld : (e.value, true) ∈ comp) :
    (lock_files_lock comp (Option.some 0) elapsed rng (fuel + 1) es).result =
      LockResult.timedOut
    ∧ (lock_files_lock comp (Option.some 0) elapsed rng (fuel + 1) es).events =
        undoEvents es 0
    ∧ runEvents []
        (lock_files_lock comp (Option.some 0) elapsed rng (fuel + 1) es).events = []
    ∧ ∀ off excl,
        conflictsWith
          (runEvents []
            (lock_files_lock comp (Option.some 0) elapsed rng (fuel + 1) es).events)
          off excl = false := by
  obtain ⟨e0, rest, rfl⟩ : ∃ e0 rest, es = e0 :: rest := by
    cases es with
    | nil => cases he
    | cons a l => exact ⟨a, l, rfl⟩
  have hp : passAux comp (Option.some 0) elapsed (e0 :: rest) 0 =
      (PassExit.timedOutAt 0, [], 1) := by
    simp [passAux, Nat.zero_le]
  have hrp : runPass comp (Option.some 0) elapsed (e0 :: rest) 0 =
      ⟨PassExit.timedOutAt 0, undoEvents (e0 :: rest) 0, 1⟩ := by
    simp [runPass, hp]
  have hout : lock_files_lock comp (Option.some 0) elapsed rng (fuel + 1) (e0 :: rest) =
      ⟨LockResult.timedOut, undoEvents (e0 :: rest) 0, [e0 :: rest]⟩ := by
    simp [lock_files_lock, lockLoop, hrp]
  have h3 : runEvents [] (undoEvents (e0 :: rest) 0) = [] := by
    simp [undoEvents, runEvents, applyEvent]
  refine ⟨by rw [hout], by rw [hout], by rw [hout]; exact h3, ?_⟩
  intro off excl
  rw [hout]
  show conflictsWith (runEvents [] (undoEvents (e0 :: rest) 0)) off excl = false
  rw [h3]
  rfl

/-- Witness for C3: entity 5 requested while a competitor holds offset 5
exclusively; the zero-deadline call times out at once with nothing held. -/
theorem C3_zero_deadline_TimedOut_witness :
    (lock_files_lock [(5, true)] (Option.some 0) (fun _ => 0) (fun _ => 0) 1
        [⟨5, true⟩]).result = LockResult.timedOut
    ∧ (lock_files_lock [(5, true)] (Option.some 0) (fun _ => 0) (fun _ => 0) 1
        [⟨5, true⟩]).events = undoEvents [⟨5, true⟩] 0
    ∧ runEvents []
        (lock_files_lock [(5, true)] (Option.some 0) (fun _ => 0) (fun _ => 0) 1
          [⟨5, true⟩]).events = []
    ∧ conflictsWith
        (runEvents []
          (lock_files_lock [(5, true)] (Option.some 0) (fun _ => 0) (fun _ => 0) 1
            [⟨5, true⟩]).events) 5 true = false :=
  have h := C3_zero_deadline_TimedOut [(5, true)] (fun _ => 0) (fun _ => 0) 0
    [⟨5, true⟩] ⟨5, true⟩ (List.Mem.head _) (List.Mem.head _)
  ⟨h.1, h.2.1, h.2.2.1, h.2.2.2 5 true⟩

/-- C4: across the retry loop every pass's entity sequence is a permutation
of the requested one (the requested multiset is preserved), exactly one
thread yield separates consecutive passes whenever the loop returns, a
success return means the final pass granted a lock for every requested
entity — all requested entities are held simultaneously at that point — and
with the default infinite deadline the loop never returns the timed-out
error (it exits only by a fully successful pass). -/
theorem C4_retry_loop (comp : CompTable) (d : Option Nat) (elapsed rng : Nat → Nat)
    (fuel : Nat) (es : List entity_type) :
    (∀ p ∈ (lock_files_lock comp d elapsed rng fuel es).passes, List.Perm p es)
    ∧ ((lock_files_lock comp d elapsed rng fuel es).result ≠ LockResult.outOfFuel →
        countYield (lock_files_lock comp d elapsed rng fuel es).events + 1 =
          (lock_files_lock comp d elapsed rng fuel es).passes.length)
    ∧ ((lock_files_lock comp d elapsed rng fuel es).result = LockResult.success →
        ∀ e ∈ es, mkHeld e ∈
          runEvents [] (lock_files_lock comp d elapsed rng fuel es).events)
    ∧ (d = Option.none →
        (lock_files_lock comp d elapsed rng fuel es).result ≠ LockResult.timedOut) := by
  refine ⟨fun p hp => lockLoop_passes_perm comp d elapsed rng fuel es 0 0 p hp,
    fun h => lockLoop_yield_count comp d elapsed rng fuel es 0 0 h,
    fun h => lockLoop_success_held comp d elapsed rng fuel es 0 0 h,
    fun hd => ?_⟩
  subst hd
  exact lockLoop_no_timeout comp elapsed rng fuel es 0 0

/-- Witness for C4: with no competitor and an infinite deadline, one pass
acquires entities 1 (exclusive) and 2 (shared); the loop returns success
with zero yields, one pass, both entities held, and no timeout. -/
theorem C4_retry_loop_witness :
    List.Perm [(⟨1, true⟩ : entity_type), ⟨2, false⟩] [⟨1, true⟩, ⟨2, false⟩]
    ∧ countYield
        (lock_files_lock [] Option.none (fun _ => 0) (fun _ => 0) 1
          [⟨1, true⟩, ⟨2, false⟩]).events + 1 =
      (lock_files_lock [] Option.none (fun _ => 0) (fun _ => 0) 1
        [⟨1, true⟩, ⟨2, false⟩]).passes.length
    ∧ mkHeld ⟨1, true⟩ ∈
        runEvents []
          (lock_files_lock [] Option.none (fun _ => 0) (fun _ => 0) 1
            [⟨1, true⟩, ⟨2, false⟩]).events
    ∧ (lock_files_lock [] Option.none (fun _ => 0) (fun _ => 0) 1
        [⟨1, true⟩, ⟨2, false⟩]).result ≠ LockResult.timedOut :=
  have h := C4_retry_loop [] Option.none (fun _ => 0) (fun _ => 0) 1
    [⟨1, true⟩, ⟨2, false⟩]
  ⟨h.1 [⟨1, true⟩, ⟨2, false⟩] (List.Mem.head _),
   h.2.1 (fun hk => LockResult.noConfusion hk),
   h.2.2.1 rfl ⟨1, true⟩ (List.Mem.head _), h.2.2.2 rfl⟩

end AfioProof
